import Mathlib

/-!
Verification of the upload coordinator (src/src/coordinator.ts, the generator
variant). The bandwidth gatekeeper (getMaxConcurrentSlots, processQueue,
acquireUploadSlot, releaseUploadSlot, resetCoordinator) is embedded as explicit
state passing over an insertion-ordered association-list model of the JS Map,
and the bounded-concurrency driver (processConcurrently) as a step function
parameterised by a completion scheduler that picks which in-flight operation
settles at each suspension point.
-/

def SMALL_FILE_THRESHOLD : Nat := 65 * 1024 * 1024

def MAX_CONCURRENT_SMALL : Nat := 5

def MAX_CONCURRENT_LARGE : Nat := 3

structure QueueItem where
  fileId : String
  fileSize : Nat
deriving DecidableEq

structure CoordState where
  activeUploads : List (String × Nat)
  queue : List QueueItem
deriving DecidableEq

/-- JS Map.set on an insertion-ordered association list: replace the value in
place when the key is present, otherwise append a fresh entry at the tail. -/
def mapSet : List (String × Nat) → String → Nat → List (String × Nat)
  | [], k, v => [(k, v)]
  | p :: rest, k, v => if p.1 = k then (k, v) :: rest else p :: mapSet rest k v

/-- JS Map.delete: remove the entry carrying the given key. -/
def mapDelete : List (String × Nat) → String → List (String × Nat)
  | [], _ => []
  | p :: rest, k => if p.1 = k then mapDelete rest k else p :: mapDelete rest k

/-- Embeds getMaxConcurrentSlots: iterate over the active sizes and return the
large-file limit as soon as one size exceeds the threshold, else the small
limit. -/
def getMaxConcurrentSlots : List (String × Nat) → Nat
  | [] => MAX_CONCURRENT_SMALL
  | p :: rest =>
    if SMALL_FILE_THRESHOLD < p.2 then MAX_CONCURRENT_LARGE
    else getMaxConcurrentSlots rest

/-- Embeds the while loop of processQueue. Note the slot bound maxSlots is a
parameter: the source computes it once before the loop and never recomputes it
inside the loop. Returns the new active map, the remaining queue, and the
admitted items in the order they were popped. -/
def processQueueLoop (maxSlots : Nat) (active : List (String × Nat)) :
    List QueueItem → List (String × Nat) × List QueueItem × List QueueItem
  | [] => (active, [], [])
  | next :: rest =>
    if active.length < maxSlots then
      let r := processQueueLoop maxSlots (mapSet active next.fileId next.fileSize) rest
      (r.1, r.2.1, next :: r.2.2)
    else (active, next :: rest, [])

/-- Embeds processQueue: early return on an empty queue, otherwise compute
maxSlots once and run the admission loop. The second component lists the items
admitted (whose suspended callers are resumed) during this drain. -/
def processQueue (s : CoordState) : CoordState × List QueueItem :=
  if s.queue = [] then (s, [])
  else
    let maxSlots := getMaxConcurrentSlots s.activeUploads
    let r := processQueueLoop maxSlots s.activeUploads s.queue
    (⟨r.1, r.2.1⟩, r.2.2)

/-- Embeds acquireUploadSlot: capacity is computed over the current active set,
before the candidate is considered part of it. The Bool records whether the
candidate was admitted immediately (true) or appended to the wait queue
(false, the caller suspends). -/
def acquireUploadSlot (s : CoordState) (fid : String) (fsize : Nat) :
    CoordState × Bool :=
  let maxSlots := getMaxConcurrentSlots s.activeUploads
  if s.activeUploads.length < maxSlots then
    (⟨mapSet s.activeUploads fid fsize, s.queue⟩, true)
  else
    (⟨s.activeUploads, s.queue ++ [⟨fid, fsize⟩]⟩, false)

/-- Embeds releaseUploadSlot: delete the id from the active map, then drain the
queue. -/
def releaseUploadSlot (s : CoordState) (fid : String) :
    CoordState × List QueueItem :=
  processQueue ⟨mapDelete s.activeUploads fid, s.queue⟩

/-- Embeds resetCoordinator: clear the active map and the wait queue. -/
def resetCoordinator (_ : CoordState) : CoordState :=
  ⟨[], []⟩

/-- The state of a freshly constructed gatekeeper (module load). -/
def initState : CoordState :=
  ⟨[], []⟩

/-- The externally visible gatekeeper operations, for reachability results. -/
inductive CoordOp where
  | acquire (fid : String) (fsize : Nat)
  | release (fid : String)
  | reset
deriving DecidableEq

def applyOp (s : CoordState) : CoordOp → CoordState
  | .acquire fid fsize => (acquireUploadSlot s fid fsize).1
  | .release fid => (releaseUploadSlot s fid).1
  | .reset => resetCoordinator s

def runOps (ops : List CoordOp) : CoordState :=
  ops.foldl applyOp initState

theorem getMaxConcurrentSlots_all_small (m : List (String × Nat))
    (h : ∀ p ∈ m, p.2 ≤ SMALL_FILE_THRESHOLD) :
    getMaxConcurrentSlots m = MAX_CONCURRENT_SMALL := by
  induction m with
  | nil => rfl
  | cons p rest ih =>
    have hp : ¬ SMALL_FILE_THRESHOLD < p.2 := by
      have := h p (List.mem_cons_self p rest)
      omega
    simp only [getMaxConcurrentSlots, if_neg hp]
    exact ih fun q hq => h q (List.mem_cons_of_mem p hq)

theorem getMaxConcurrentSlots_of_mem_large (m : List (String × Nat))
    (p : String × Nat) (hp : p ∈ m) (hl : SMALL_FILE_THRESHOLD < p.2) :
    getMaxConcurrentSlots m = MAX_CONCURRENT_LARGE := by
  induction m with
  | nil => cases hp
  | cons q rest ih =>
    by_cases hq : SMALL_FILE_THRESHOLD < q.2
    · simp only [getMaxConcurrentSlots, if_pos hq]
    · simp only [getMaxConcurrentSlots, if_neg hq]
      rcases List.mem_cons.mp hp with h1 | h2
      · subst h1; omega
      · exact ih h2

theorem getMaxConcurrentSlots_le_five (m : List (String × Nat)) :
    getMaxConcurrentSlots m ≤ 5 := by
  induction m with
  | nil => exact Nat.le_refl 5
  | cons q rest ih =>
    simp only [getMaxConcurrentSlots]
    split
    · decide
    · exact ih

theorem getMaxConcurrentSlots_append_le (m xs : List (String × Nat)) :
    getMaxConcurrentSlots (m ++ xs) ≤ getMaxConcurrentSlots m := by
  induction m with
  | nil =>
    simpa using getMaxConcurrentSlots_le_five xs
  | cons q rest ih =>
    simp only [List.cons_append, getMaxConcurrentSlots]
    split
    · exact Nat.le_refl _
    · exact ih

theorem mapSet_of_fresh (m : List (String × Nat)) (k : String) (v : Nat)
    (h : ∀ p ∈ m, p.1 ≠ k) :
    mapSet m k v = m ++ [(k, v)] := by
  induction m with
  | nil => rfl
  | cons q rest ih =>
    have hq : ¬ q.1 = k := h q (List.mem_cons_self q rest)
    simp only [mapSet, if_neg hq, List.cons_append, List.cons.injEq, true_and]
    exact ih fun p hp => h p (List.mem_cons_of_mem q hp)

theorem mapSet_length_le (m : List (String × Nat)) (k : String) (v : Nat) :
    (mapSet m k v).length ≤ m.length + 1 := by
  induction m with
  | nil => simp [mapSet]
  | cons q rest ih =>
    simp only [mapSet]
    split
    · simp
    · simpa using Nat.succ_le_succ ih

theorem mem_mapSet_of_ne (m : List (String × Nat)) (k : String) (v : Nat)
    (p : String × Nat) (hp : p ∈ m) (hne : p.1 ≠ k) :
    p ∈ mapSet m k v := by
  induction m with
  | nil => cases hp
  | cons q rest ih =>
    simp only [mapSet]
    split
    · rcases List.mem_cons.mp hp with h1 | h2
      · subst h1
        exact absurd (by assumption) hne
      · exact List.mem_cons_of_mem _ h2
    · rcases List.mem_cons.mp hp with h1 | h2
      · subst h1; exact List.mem_cons_self _ _
      · exact List.mem_cons_of_mem _ (ih h2)

theorem mapSet_keys_ne (m : List (String × Nat)) (k : String) (v : Nat)
    (fid : String) (hm : ∀ p ∈ m, p.1 ≠ fid) (hk : k ≠ fid) :
    ∀ p ∈ mapSet m k v, p.1 ≠ fid := by
  induction m with
  | nil =>
    intro p hp
    simp only [mapSet, List.mem_singleton] at hp
    subst hp; exact hk
  | cons q rest ih =>
    intro p hp
    simp only [mapSet] at hp
    split at hp
    · rcases List.mem_cons.mp hp with h1 | h2
      · subst h1; exact hk
      · exact hm p (List.mem_cons_of_mem q h2)
    · rcases List.mem_cons.mp hp with h1 | h2
      · subst h1; exact hm p (List.mem_cons_self p rest)
      · exact ih (fun r hr => hm r (List.mem_cons_of_mem q hr)) p h2

theorem mapDelete_keys_ne (m : List (String × Nat)) (k : String) :
    ∀ p ∈ mapDelete m k, p.1 ≠ k := by
  induction m with
  | nil => intro p hp; cases hp
  | cons q rest ih =>
    intro p hp
    simp only [mapDelete] at hp
    split at hp
    · exact ih p hp
    · rcases List.mem_cons.mp hp with h1 | h2
      · subst h1; assumption
      · exact ih p h2

theorem mem_mapDelete_of_ne (m : List (String × Nat)) (k : String)
    (p : String × Nat) (hp : p ∈ m) (hne : p.1 ≠ k) :
    p ∈ mapDelete m k := by
  induction m with
  | nil => cases hp
  | cons q rest ih =>
    simp only [mapDelete]
    split
    · rcases List.mem_cons.mp hp with h1 | h2
      · subst h1; exact absurd (by assumption) hne
      · exact ih h2
    · rcases List.mem_cons.mp hp with h1 | h2
      · subst h1; exact List.mem_cons_self _ _
      · exact List.mem_cons_of_mem _ (ih h2)

theorem mapDelete_length_le (m : List (String × Nat)) (k : String) :
    (mapDelete m k).length ≤ m.length := by
  induction m with
  | nil => exact Nat.le_refl 0
  | cons q rest ih =>
    simp only [mapDelete]
    split
    · exact Nat.le_succ_of_le ih
    · simpa using Nat.succ_le_succ ih

/-- C8: for every active set, getMaxConcurrentSlots returns the small-mode
capacity 5 when every active size is at most the 65 MiB threshold, and the
large-mode capacity 3 when at least one active size exceeds it. -/
theorem getMaxConcurrentSlots_correct (m : List (String × Nat)) :
    SMALL_FILE_THRESHOLD = 65 * 1024 * 1024 ∧
    MAX_CONCURRENT_SMALL = 5 ∧
    MAX_CONCURRENT_LARGE = 3 ∧
    ((∀ p ∈ m, p.2 ≤ SMALL_FILE_THRESHOLD) →
      getMaxConcurrentSlots m = MAX_CONCURRENT_SMALL) ∧
    ((∃ p ∈ m, SMALL_FILE_THRESHOLD < p.2) →
      getMaxConcurrentSlots m = MAX_CONCURRENT_LARGE) := by
  refine ⟨rfl, rfl, rfl, ?_, ?_⟩
  · exact getMaxConcurrentSlots_all_small m
  · rintro ⟨p, hp, hl⟩
    exact getMaxConcurrentSlots_of_mem_large m p hp hl

def mb (n : Nat) : Nat := n * 1024 * 1024

def idS1 : String := "s1"

def idS2 : String := "s2"

def idS3 : String := "s3"

def idS4 : String := "s4"

def idS5 : String := "s5"

def idS6 : String := "s6"

def idL1 : String := "L1"

def idW1 : String := "w1"

/-- C8 witness: a set of two small files yields capacity 5, and a set
containing one 100 MB file yields capacity 3. -/
theorem getMaxConcurrentSlots_correct_witness :
    getMaxConcurrentSlots [(idS1, mb 30), (idS2, mb 40)] = MAX_CONCURRENT_SMALL ∧
    getMaxConcurrentSlots [(idS1, mb 30), (idL1, mb 100)] = MAX_CONCURRENT_LARGE :=
  ⟨(getMaxConcurrentSlots_correct [(idS1, mb 30), (idS2, mb 40)]).2.2.2.1
      (by decide),
   (getMaxConcurrentSlots_correct [(idS1, mb 30), (idL1, mb 100)]).2.2.2.2
      ⟨(idL1, mb 100), by decide, by decide⟩⟩

/-- C9: resetCoordinator clears the active map and the wait queue regardless of
the prior state, and an acquire performed on the reset state behaves exactly as
on a freshly constructed gatekeeper: the candidate is admitted immediately into
a singleton active set, whatever its size. -/
theorem resetCoordinator_fresh (s : CoordState) (fid : String) (fsize : Nat) :
    (resetCoordinator s).activeUploads = [] ∧
    (resetCoordinator s).queue = [] ∧
    acquireUploadSlot (resetCoordinator s) fid fsize
      = acquireUploadSlot initState fid fsize ∧
    acquireUploadSlot (resetCoordinator s) fid fsize = (⟨[(fid, fsize)], []⟩, true) :=
  ⟨rfl, rfl, rfl, rfl⟩

theorem processQueueLoop_take_drop (maxSlots : Nat) :
    ∀ (q : List QueueItem) (active : List (String × Nat)),
    ∃ k, (processQueueLoop maxSlots active q).2.2 = q.take k ∧
      (processQueueLoop maxSlots active q).2.1 = q.drop k := by
  intro q
  induction q with
  | nil => intro active; exact ⟨0, rfl, rfl⟩
  | cons next rest ih =>
    intro active
    by_cases hc : active.length < maxSlots
    · obtain ⟨k, h1, h2⟩ := ih (mapSet active next.fileId next.fileSize)
      refine ⟨k + 1, ?_, ?_⟩
      · simp only [processQueueLoop, if_pos hc, List.take_succ_cons]
        exact congrArg (next :: ·) h1
      · simpa only [processQueueLoop, if_pos hc, List.drop_succ_cons] using h2
    · exact ⟨0, by simp [processQueueLoop, if_neg hc], by
        simp only [processQueueLoop, if_neg hc, List.drop_zero]⟩

theorem processQueueLoop_spec (maxSlots : Nat) :
    ∀ (q : List QueueItem) (active : List (String × Nat)),
    (∀ qi ∈ q, ∀ p ∈ active, qi.fileId ≠ p.1) →
    (q.map QueueItem.fileId).Nodup →
    ∃ k, k ≤ q.length ∧
      (processQueueLoop maxSlots active q).2.2 = q.take k ∧
      (processQueueLoop maxSlots active q).2.1 = q.drop k ∧
      (processQueueLoop maxSlots active q).1
        = active ++ (q.take k).map (fun qi => (qi.fileId, qi.fileSize)) ∧
      (∀ j, j < k → active.length + j < maxSlots) ∧
      (k < q.length → maxSlots ≤ active.length + k) := by
  intro q
  induction q with
  | nil =>
    intro active _ _
    exact ⟨0, Nat.le_refl 0, rfl, rfl, by simp [processQueueLoop],
      fun j hj => absurd hj (Nat.not_lt_zero j), fun h => absurd h (by simp)⟩
  | cons next rest ih =>
    intro active hfresh hnodup
    by_cases hc : active.length < maxSlots
    · have hfid : ∀ p ∈ active, p.1 ≠ next.fileId := fun p hp =>
        (hfresh next (List.mem_cons_self next rest) p hp).symm
      have hset : mapSet active next.fileId next.fileSize
          = active ++ [(next.fileId, next.fileSize)] :=
        mapSet_of_fresh active next.fileId next.fileSize hfid
      have hnodup' : (rest.map QueueItem.fileId).Nodup :=
        (List.nodup_cons.mp hnodup).2
      have hhead : next.fileId ∉ rest.map QueueItem.fileId :=
        (List.nodup_cons.mp hnodup).1
      have hfresh' : ∀ qi ∈ rest, ∀ p ∈ mapSet active next.fileId next.fileSize,
          qi.fileId ≠ p.1 := by
        intro qi hqi p hp
        rw [hset] at hp
        rcases List.mem_append.mp hp with h1 | h2
        · exact hfresh qi (List.mem_cons_of_mem next hqi) p h1
        · have : p = (next.fileId, next.fileSize) := List.mem_singleton.mp h2
          subst this
          intro hcontra
          apply hhead
          have hmem : qi.fileId ∈ rest.map QueueItem.fileId :=
            List.mem_map_of_mem QueueItem.fileId hqi
          rw [hcontra] at hmem
          exact hmem
      obtain ⟨k, hk, h1, h2, h3, h4, h5⟩ :=
        ih (mapSet active next.fileId next.fileSize) hfresh' hnodup'
      have hlen : (mapSet active next.fileId next.fileSize).length
          = active.length + 1 := by
        rw [hset]; simp
      refine ⟨k + 1, by simpa using Nat.succ_le_succ hk, ?_, ?_, ?_, ?_, ?_⟩
      · simp only [processQueueLoop, if_pos hc, List.take_succ_cons]
        exact congrArg (next :: ·) h1
      · simpa only [processQueueLoop, if_pos hc, List.drop_succ_cons] using h2
      · simp only [processQueueLoop, if_pos hc, List.take_succ_cons, List.map_cons]
        rw [h3, hset]
        simp
      · intro j hj
        match j with
        | 0 => simpa using hc
        | j' + 1 =>
          have := h4 j' (Nat.lt_of_succ_lt_succ hj)
          omega
      · intro hklen
        have := h5 (by simpa using Nat.lt_of_succ_lt_succ hklen)
        omega
    · refine ⟨0, Nat.zero_le _, by simp [processQueueLoop, if_neg hc],
        by simp only [processQueueLoop, if_neg hc, List.drop_zero],
        by simp [processQueueLoop, if_neg hc],
        fun j hj => absurd hj (Nat.not_lt_zero j), fun _ => by omega⟩

theorem processQueueLoop_length_le (maxSlots : Nat) (h5 : maxSlots ≤ 5) :
    ∀ (q : List QueueItem) (active : List (String × Nat)),
    active.length ≤ 5 →
    (processQueueLoop maxSlots active q).1.length ≤ 5 := by
  intro q
  induction q with
  | nil => intro active h; exact h
  | cons next rest ih =>
    intro active h
    by_cases hc : active.length < maxSlots
    · simp only [processQueueLoop, if_pos hc]
      refine ih (mapSet active next.fileId next.fileSize) ?_
      have := mapSet_length_le active next.fileId next.fileSize
      omega
    · simpa only [processQueueLoop, if_neg hc] using h

theorem processQueueLoop_keys_ne (maxSlots : Nat) (fid : String) :
    ∀ (q : List QueueItem) (active : List (String × Nat)),
    (∀ p ∈ active, p.1 ≠ fid) →
    (∀ qi ∈ q, qi.fileId ≠ fid) →
    ∀ p ∈ (processQueueLoop maxSlots active q).1, p.1 ≠ fid := by
  intro q
  induction q with
  | nil => intro active ha _; exact ha
  | cons next rest ih =>
    intro active ha hq
    by_cases hc : active.length < maxSlots
    · simp only [processQueueLoop, if_pos hc]
      refine ih (mapSet active next.fileId next.fileSize) ?_ ?_
      · exact mapSet_keys_ne active next.fileId next.fileSize fid ha
          (hq next (List.mem_cons_self next rest))
      · exact fun qi hqi => hq qi (List.mem_cons_of_mem next hqi)
    · simpa only [processQueueLoop, if_neg hc] using ha

theorem processQueueLoop_mem_preserved (maxSlots : Nat) (p : String × Nat) :
    ∀ (q : List QueueItem) (active : List (String × Nat)),
    p ∈ active →
    (∀ qi ∈ q, qi.fileId ≠ p.1) →
    p ∈ (processQueueLoop maxSlots active q).1 := by
  intro q
  induction q with
  | nil => intro active hp _; exact hp
  | cons next rest ih =>
    intro active hp hq
    by_cases hc : active.length < maxSlots
    · simp only [processQueueLoop, if_pos hc]
      refine ih (mapSet active next.fileId next.fileSize) ?_ ?_
      · exact mem_mapSet_of_ne active next.fileId next.fileSize p hp
          fun hcontra => hq next (List.mem_cons_self next rest) hcontra.symm
      · exact fun qi hqi => hq qi (List.mem_cons_of_mem next hqi)
    · simpa only [processQueueLoop, if_neg hc] using hp

theorem processQueue_take_drop (s : CoordState) :
    ∃ k, (processQueue s).2 = s.queue.take k ∧
      (processQueue s).1.queue = s.queue.drop k := by
  by_cases hq : s.queue = []
  · exact ⟨0, by simp [processQueue, if_pos hq, hq], by simp [processQueue, if_pos hq, hq]⟩
  · simp only [processQueue, if_neg hq]
    exact processQueueLoop_take_drop (getMaxConcurrentSlots s.activeUploads)
      s.queue s.activeUploads

theorem processQueue_mem_preserved (s : CoordState) (p : String × Nat)
    (hp : p ∈ s.activeUploads) (hq : ∀ qi ∈ s.queue, qi.fileId ≠ p.1) :
    p ∈ (processQueue s).1.activeUploads := by
  by_cases h : s.queue = []
  · simpa [processQueue, if_pos h] using hp
  · simp only [processQueue, if_neg h]
    exact processQueueLoop_mem_preserved (getMaxConcurrentSlots s.activeUploads)
      p s.queue s.activeUploads hp hq

theorem processQueue_keys_ne (s : CoordState) (fid : String)
    (ha : ∀ p ∈ s.activeUploads, p.1 ≠ fid)
    (hq : ∀ qi ∈ s.queue, qi.fileId ≠ fid) :
    ∀ p ∈ (processQueue s).1.activeUploads, p.1 ≠ fid := by
  by_cases h : s.queue = []
  · simpa [processQueue, if_pos h] using ha
  · simp only [processQueue, if_neg h]
    exact processQueueLoop_keys_ne (getMaxConcurrentSlots s.activeUploads)
      fid s.queue s.activeUploads ha hq

theorem releaseUploadSlot_mem_preserved (t : CoordState) (rid : String)
    (p : String × Nat) (hp : p ∈ t.activeUploads) (hne : p.1 ≠ rid)
    (hq : ∀ qi ∈ t.queue, qi.fileId ≠ p.1) :
    p ∈ (releaseUploadSlot t rid).1.activeUploads :=
  processQueue_mem_preserved ⟨mapDelete t.activeUploads rid, t.queue⟩ p
    (mem_mapDelete_of_ne t.activeUploads rid p hp hne) hq

theorem releaseUploadSlot_keys_ne (t : CoordState) (fid : String)
    (hq : ∀ qi ∈ t.queue, qi.fileId ≠ fid) :
    ∀ p ∈ (releaseUploadSlot t fid).1.activeUploads, p.1 ≠ fid :=
  processQueue_keys_ne ⟨mapDelete t.activeUploads fid, t.queue⟩ fid
    (mapDelete_keys_ne t.activeUploads fid) hq

def exDrain : CoordState :=
  ⟨[(idS3, mb 30), (idS4, mb 30), (idS5, mb 30)],
   [⟨idL1, mb 100⟩, ⟨idS6, mb 30⟩]⟩

/-- C1 counterexample: with three small files active and the wait queue holding
a large file followed by a small one, a single drain admits BOTH queued items:
after the large head is admitted the active count is 4 and a fresh capacity
recomputation would yield 3, yet the next queued item is still admitted in the
same drain, because processQueue computes maxSlots once before its loop and
never recomputes it per admission step. -/
theorem processQueue_stale_capacity_counterexample :
    (processQueue exDrain).2 = [⟨idL1, mb 100⟩, ⟨idS6, mb 30⟩] ∧
    (processQueue exDrain).1.activeUploads.length = 5 ∧
    getMaxConcurrentSlots (mapSet exDrain.activeUploads idL1 (mb 100))
      = MAX_CONCURRENT_LARGE ∧
    MAX_CONCURRENT_LARGE ≤ (mapSet exDrain.activeUploads idL1 (mb 100)).length := by
  decide

theorem processQueue_once_spec (s : CoordState)
    (hfresh : ∀ qi ∈ s.queue, ∀ p ∈ s.activeUploads, qi.fileId ≠ p.1)
    (hnodup : (s.queue.map QueueItem.fileId).Nodup) :
    ∃ k, k ≤ s.queue.length ∧
      (processQueue s).2 = s.queue.take k ∧
      (processQueue s).1.queue = s.queue.drop k ∧
      (processQueue s).1.activeUploads
        = s.activeUploads ++ (s.queue.take k).map (fun qi => (qi.fileId, qi.fileSize)) ∧
      (∀ j, j < k →
        s.activeUploads.length + j < getMaxConcurrentSlots s.activeUploads) ∧
      (k < s.queue.length →
        getMaxConcurrentSlots s.activeUploads ≤ s.activeUploads.length + k) := by
  by_cases hq : s.queue = []
  · refine ⟨0, Nat.zero_le _, by simp [processQueue, if_pos hq, hq],
      by simp [processQueue, if_pos hq, hq], by simp [processQueue, if_pos hq, hq],
      fun j hj => absurd hj (Nat.not_lt_zero j), fun h => ?_⟩
    rw [hq] at h
    exact absurd h (by simp)
  · simp only [processQueue, if_neg hq]
    exact processQueueLoop_spec (getMaxConcurrentSlots s.activeUploads)
      s.queue s.activeUploads hfresh hnodup

/-- C1 (amended): during a drain, capacity is computed exactly once, from the
ActiveAdmission set as it stands when processQueue is entered (after the
triggering release), and every admission in that drain is gated against this
single value: the j-th admission happens only while the active count (initial
count plus j) is strictly below it, the admitted items are the first k queue
entries in order, and if the queue is not exhausted the active count has
reached the once-computed capacity. Capacity is not recomputed after each
admission, so after a large head is admitted further items can still be
admitted in the same drain even though the active count is at or above the
lowered capacity of 3. -/
theorem processQueue_single_capacity_computation (s : CoordState)
    (hfresh : ∀ qi ∈ s.queue, ∀ p ∈ s.activeUploads, qi.fileId ≠ p.1)
    (hnodup : (s.queue.map QueueItem.fileId).Nodup) :
    ∃ k, k ≤ s.queue.length ∧
      (processQueue s).2 = s.queue.take k ∧
      (processQueue s).1.queue = s.queue.drop k ∧
      (processQueue s).1.activeUploads
        = s.activeUploads ++ (s.queue.take k).map (fun qi => (qi.fileId, qi.fileSize)) ∧
      (∀ j, j < k →
        s.activeUploads.length + j < getMaxConcurrentSlots s.activeUploads) ∧
      (k < s.queue.length →
        getMaxConcurrentSlots s.activeUploads ≤ s.activeUploads.length + k) :=
  processQueue_once_spec s hfresh hnodup

/-- C1 amended witness: the single-computation characterisation applied to the
concrete drain of the counterexample state. -/
theorem processQueue_single_capacity_computation_witness :
    ∃ k, k ≤ exDrain.queue.length ∧
      (processQueue exDrain).2 = exDrain.queue.take k ∧
      (processQueue exDrain).1.queue = exDrain.queue.drop k ∧
      (processQueue exDrain).1.activeUploads
        = exDrain.activeUploads
          ++ (exDrain.queue.take k).map (fun qi => (qi.fileId, qi.fileSize)) ∧
      (∀ j, j < k →
        exDrain.activeUploads.length + j
          < getMaxConcurrentSlots exDrain.activeUploads) ∧
      (k < exDrain.queue.length →
        getMaxConcurrentSlots exDrain.activeUploads
          ≤ exDrain.activeUploads.length + k) :=
  processQueue_single_capacity_computation exDrain (by decide) (by decide)

/-- C2: acquireUploadSlot evaluates capacity over the active set before the
candidate is inserted, so in any state with fewer than 5 active items, all of
them small, a large candidate is admitted immediately (appended to the active
set, queue untouched); afterwards capacity is 3 for all subsequent decisions;
the acquire removes no already-admitted entry; and in general a release removes
only its own id: every other active entry survives a release. -/
theorem acquire_large_while_all_small (s : CoordState) (fid : String)
    (fsize : Nat)
    (hcount : s.activeUploads.length < 5)
    (hsmall : ∀ p ∈ s.activeUploads, p.2 ≤ SMALL_FILE_THRESHOLD)
    (hlarge : SMALL_FILE_THRESHOLD < fsize)
    (hfresh : ∀ p ∈ s.activeUploads, p.1 ≠ fid) :
    (acquireUploadSlot s fid fsize).2 = true ∧
    (acquireUploadSlot s fid fsize).1.activeUploads
      = s.activeUploads ++ [(fid, fsize)] ∧
    (acquireUploadSlot s fid fsize).1.queue = s.queue ∧
    getMaxConcurrentSlots (acquireUploadSlot s fid fsize).1.activeUploads
      = MAX_CONCURRENT_LARGE ∧
    (∀ p ∈ s.activeUploads, p ∈ (acquireUploadSlot s fid fsize).1.activeUploads) ∧
    (∀ (t : CoordState) (rid : String) (p : String × Nat),
      p ∈ t.activeUploads → p.1 ≠ rid → (∀ qi ∈ t.queue, qi.fileId ≠ p.1) →
      p ∈ (releaseUploadSlot t rid).1.activeUploads) := by
  have hcap : getMaxConcurrentSlots s.activeUploads = MAX_CONCURRENT_SMALL :=
    getMaxConcurrentSlots_all_small s.activeUploads hsmall
  have hc : s.activeUploads.length < getMaxConcurrentSlots s.activeUploads := by
    rw [hcap]; exact hcount
  have hset : mapSet s.activeUploads fid fsize
      = s.activeUploads ++ [(fid, fsize)] :=
    mapSet_of_fresh s.activeUploads fid fsize hfresh
  have hacq : acquireUploadSlot s fid fsize
      = (⟨mapSet s.activeUploads fid fsize, s.queue⟩, true) := by
    simp only [acquireUploadSlot, if_pos hc]
  refine ⟨by rw [hacq], by rw [hacq, hset], by rw [hacq], ?_, ?_, ?_⟩
  · rw [hacq, hset]
    exact getMaxConcurrentSlots_of_mem_large _ (fid, fsize)
      (List.mem_append_right _ (List.mem_singleton_self _)) hlarge
  · intro p hp
    rw [hacq, hset]
    exact List.mem_append_left _ hp
  · intro t rid p hp hne hqi
    exact releaseUploadSlot_mem_preserved t rid p hp hne hqi

def exSmall4 : CoordState :=
  ⟨[(idS1, mb 30), (idS2, mb 30), (idS3, mb 30), (idS4, mb 30)], []⟩

/-- C2 witness: with four 30 MB files active, a 100 MB candidate is admitted
immediately, capacity drops to 3, and the four small entries all survive; the
active count 5 then exceeds the new capacity 3. -/
theorem acquire_large_while_all_small_witness :
    ((acquireUploadSlot exSmall4 idL1 (mb 100)).2 = true ∧
    (acquireUploadSlot exSmall4 idL1 (mb 100)).1.activeUploads
      = exSmall4.activeUploads ++ [(idL1, mb 100)] ∧
    (acquireUploadSlot exSmall4 idL1 (mb 100)).1.queue = exSmall4.queue ∧
    getMaxConcurrentSlots (acquireUploadSlot exSmall4 idL1 (mb 100)).1.activeUploads
      = MAX_CONCURRENT_LARGE ∧
    (∀ p ∈ exSmall4.activeUploads,
      p ∈ (acquireUploadSlot exSmall4 idL1 (mb 100)).1.activeUploads) ∧
    (∀ (t : CoordState) (rid : String) (p : String × Nat),
      p ∈ t.activeUploads → p.1 ≠ rid → (∀ qi ∈ t.queue, qi.fileId ≠ p.1) →
      p ∈ (releaseUploadSlot t rid).1.activeUploads)) ∧
    MAX_CONCURRENT_LARGE
      < (acquireUploadSlot exSmall4 idL1 (mb 100)).1.activeUploads.length :=
  ⟨acquire_large_while_all_small exSmall4 idL1 (mb 100) (by decide) (by decide)
      (by decide) (by decide),
   by decide⟩

/-- C5: admission is strictly FIFO. First, every drain pops items only from the
head of the wait queue: the admitted items are the first k queue entries in
their original order and the remainder keeps its order (no skip-ahead, no
reordering by size or age). Second, in any state satisfying the gatekeeper
invariant that a non-empty queue implies the active count has reached capacity,
a freshly acquiring item cannot jump past the waiting head: it is appended at
the queue tail and not admitted. Third, a drain over distinct ids
re-establishes that invariant, so it holds in every reachable state. -/
theorem fifo_admission (s : CoordState) (fid : String) (fsize : Nat) :
    (∃ k, (processQueue s).2 = s.queue.take k ∧
      (processQueue s).1.queue = s.queue.drop k) ∧
    (s.queue ≠ [] →
      getMaxConcurrentSlots s.activeUploads ≤ s.activeUploads.length →
      acquireUploadSlot s fid fsize
        = (⟨s.activeUploads, s.queue ++ [⟨fid, fsize⟩]⟩, false)) ∧
    ((∀ qi ∈ s.queue, ∀ p ∈ s.activeUploads, qi.fileId ≠ p.1) →
      (s.queue.map QueueItem.fileId).Nodup →
      (processQueue s).1.queue ≠ [] →
      getMaxConcurrentSlots (processQueue s).1.activeUploads
        ≤ (processQueue s).1.activeUploads.length) := by
  refine ⟨processQueue_take_drop s, ?_, ?_⟩
  · intro _ hcap
    have hc : ¬ s.activeUploads.length < getMaxConcurrentSlots s.activeUploads := by
      omega
    simp only [acquireUploadSlot, if_neg hc]
  · intro hfresh hnodup hne
    obtain ⟨k, hk, _, h2, h3, _, h5⟩ :=
      processQueue_once_spec s hfresh hnodup
    have hklt : k < s.queue.length := by
      by_contra hge
      have : s.queue.drop k = [] := List.drop_eq_nil_of_le (by omega)
      rw [h2] at hne
      exact hne this
    have hlen : (processQueue s).1.activeUploads.length
        = s.activeUploads.length + k := by
      rw [h3]
      simp [List.length_take, Nat.min_eq_left (Nat.le_of_lt hklt)]
    have hcaple : getMaxConcurrentSlots (processQueue s).1.activeUploads
        ≤ getMaxConcurrentSlots s.activeUploads := by
      rw [h3]
      exact getMaxConcurrentSlots_append_le _ _
    have := h5 hklt
    omega

def exFull : CoordState :=
  ⟨[(idS1, mb 30), (idS2, mb 30), (idS3, mb 30), (idS4, mb 30), (idS5, mb 30)],
   [⟨idW1, mb 30⟩]⟩

/-- C5 witness: with five small files active and one item waiting, a drain pops
only from the head, a new acquire is appended at the tail instead of skipping
ahead of the waiting item, and the drain re-establishes the queue invariant. -/
theorem fifo_admission_witness :
    (∃ k, (processQueue exFull).2 = exFull.queue.take k ∧
      (processQueue exFull).1.queue = exFull.queue.drop k) ∧
    acquireUploadSlot exFull idS6 (mb 30)
      = (⟨exFull.activeUploads, exFull.queue ++ [⟨idS6, mb 30⟩]⟩, false) ∧
    getMaxConcurrentSlots (processQueue exFull).1.activeUploads
      ≤ (processQueue exFull).1.activeUploads.length :=
  ⟨(fifo_admission exFull idS6 (mb 30)).1,
   (fifo_admission exFull idS6 (mb 30)).2.1 (by decide) (by decide),
   (fifo_admission exFull idS6 (mb 30)).2.2 (by decide) (by decide) (by decide)⟩

/-- Embeds the try/finally tail of processFileUpload, from the point where
admission has been granted: the wrapped upload settles with outcome up
(Except.ok on success, Except.error when uploadFn rejects), the finally clause
runs releaseUploadSlot unconditionally, and the settlement is propagated to the
caller unchanged. -/
def finishFileUpload {ε α : Type} (s : CoordState) (fid : String)
    (up : Except ε α) : (CoordState × List QueueItem) × Except ε α :=
  (releaseUploadSlot s fid, up)

/-- Embeds processFileUpload in full for the immediate-admission case: acquire
the slot, then run the try/finally tail. The none result models the suspended
case, where the caller is parked in the wait queue and its continuation (namely
finishFileUpload) runs only after a later drain resumes it. -/
def processFileUpload {ε α : Type} (s : CoordState) (fid : String) (fsize : Nat)
    (up : Except ε α) : Option ((CoordState × List QueueItem) × Except ε α) :=
  if (acquireUploadSlot s fid fsize).2 = true then
    some (finishFileUpload (acquireUploadSlot s fid fsize).1 fid up)
  else none

theorem acquireUploadSlot_admit_queue_eq (s : CoordState) (fid : String)
    (fsize : Nat) (h : (acquireUploadSlot s fid fsize).2 = true) :
    (acquireUploadSlot s fid fsize).1.queue = s.queue := by
  by_cases hc : s.activeUploads.length < getMaxConcurrentSlots s.activeUploads
  · simp only [acquireUploadSlot, if_pos hc]
  · simp only [acquireUploadSlot, if_neg hc] at h
    cases h

/-- C6: once acquire has succeeded for (fid, fsize), releaseUploadSlot fid runs
on every exit path of the transfer wrapper — the upload outcome up covers both
the success and the failure path, and the outcome is returned unchanged — so
the id ends up absent from the ActiveAdmission set (no slot leak), both for the
try/finally tail run from an arbitrary admitted state and for the whole wrapper
when admission is immediate. -/
theorem upload_slot_released_on_all_paths {ε α : Type} (s : CoordState)
    (fid : String) (fsize : Nat) (up : Except ε α)
    (hq : ∀ qi ∈ s.queue, qi.fileId ≠ fid) :
    (finishFileUpload s fid up).2 = up ∧
    (finishFileUpload s fid up).1 = releaseUploadSlot s fid ∧
    (∀ p ∈ (finishFileUpload s fid up).1.1.activeUploads, p.1 ≠ fid) ∧
    (∀ r, processFileUpload s fid fsize up = some r →
      r.2 = up ∧ ∀ p ∈ r.1.1.activeUploads, p.1 ≠ fid) := by
  refine ⟨rfl, rfl, releaseUploadSlot_keys_ne s fid hq, ?_⟩
  intro r hr
  by_cases hadm : (acquireUploadSlot s fid fsize).2 = true
  · simp only [processFileUpload, if_pos hadm, Option.some.injEq] at hr
    subst hr
    refine ⟨rfl, ?_⟩
    refine releaseUploadSlot_keys_ne (acquireUploadSlot s fid fsize).1 fid ?_
    rw [acquireUploadSlot_admit_queue_eq s fid fsize hadm]
    exact hq
  · simp only [processFileUpload, if_neg hadm] at hr
    cases hr

def msgBoom : String := "upload failed"

/-- C6 witness: with four small files active and an empty queue, a 100 MB
upload that fails is still released: the error propagates and the id is gone
from the active set. -/
theorem upload_slot_released_on_all_paths_witness :
    (finishFileUpload exSmall4 idL1 (Except.error msgBoom : Except String Nat)).2
      = Except.error msgBoom ∧
    (finishFileUpload exSmall4 idL1 (Except.error msgBoom : Except String Nat)).1
      = releaseUploadSlot exSmall4 idL1 ∧
    (∀ p ∈ (finishFileUpload exSmall4 idL1
        (Except.error msgBoom : Except String Nat)).1.1.activeUploads,
      p.1 ≠ idL1) ∧
    (∀ r, processFileUpload exSmall4 idL1 (mb 100)
        (Except.error msgBoom : Except String Nat) = some r →
      r.2 = Except.error msgBoom ∧ ∀ p ∈ r.1.1.activeUploads, p.1 ≠ idL1) :=
  upload_slot_released_on_all_paths exSmall4 idL1 (mb 100)
    (Except.error msgBoom) (by decide)

theorem acquireUploadSlot_length_le (s : CoordState) (fid : String)
    (fsize : Nat) (h : s.activeUploads.length ≤ 5) :
    (acquireUploadSlot s fid fsize).1.activeUploads.length ≤ 5 := by
  by_cases hc : s.activeUploads.length < getMaxConcurrentSlots s.activeUploads
  · simp only [acquireUploadSlot, if_pos hc]
    have h1 := mapSet_length_le s.activeUploads fid fsize
    have h2 := getMaxConcurrentSlots_le_five s.activeUploads
    omega
  · simpa only [acquireUploadSlot, if_neg hc] using h

theorem processQueue_length_le (s : CoordState)
    (h : s.activeUploads.length ≤ 5) :
    (processQueue s).1.activeUploads.length ≤ 5 := by
  by_cases hq : s.queue = []
  · simpa [processQueue, if_pos hq] using h
  · simp only [processQueue, if_neg hq]
    exact processQueueLoop_length_le (getMaxConcurrentSlots s.activeUploads)
      (getMaxConcurrentSlots_le_five s.activeUploads) s.queue s.activeUploads h

theorem releaseUploadSlot_length_le (s : CoordState) (rid : String)
    (h : s.activeUploads.length ≤ 5) :
    (releaseUploadSlot s rid).1.activeUploads.length ≤ 5 :=
  processQueue_length_le ⟨mapDelete s.activeUploads rid, s.queue⟩
    (Nat.le_trans (mapDelete_length_le s.activeUploads rid) h)

theorem foldl_applyOp_length_le (ops : List CoordOp) :
    ∀ s : CoordState, s.activeUploads.length ≤ 5 →
    (ops.foldl applyOp s).activeUploads.length ≤ 5 := by
  induction ops with
  | nil => intro s h; exact h
  | cons op rest ih =>
    intro s h
    refine ih (applyOp s op) ?_
    cases op with
    | acquire fid fsize => exact acquireUploadSlot_length_le s fid fsize h
    | release fid => exact releaseUploadSlot_length_le s fid h
    | reset => exact Nat.zero_le 5

/-- C10: the size of ActiveAdmission never exceeds 5: every admission path
inserts only when the active count is strictly below a bound that is itself at
most 5, so the bound is preserved by acquire, drain, release and reset, and it
holds in every state reachable from the fresh gatekeeper by any sequence of
operations. -/
theorem active_count_le_five (s : CoordState) (fid rid : String) (fsize : Nat)
    (h : s.activeUploads.length ≤ 5) :
    (acquireUploadSlot s fid fsize).1.activeUploads.length ≤ 5 ∧
    (processQueue s).1.activeUploads.length ≤ 5 ∧
    (releaseUploadSlot s rid).1.activeUploads.length ≤ 5 ∧
    (resetCoordinator s).activeUploads.length ≤ 5 ∧
    (∀ ops : List CoordOp, (runOps ops).activeUploads.length ≤ 5) :=
  ⟨acquireUploadSlot_length_le s fid fsize h,
   processQueue_length_le s h,
   releaseUploadSlot_length_le s rid h,
   Nat.zero_le 5,
   fun ops => foldl_applyOp_length_le ops initState (Nat.zero_le 5)⟩

/-- C10 witness: the bound instantiated at the saturated five-small state with
one waiting item. -/
theorem active_count_le_five_witness :
    (acquireUploadSlot exFull idS6 (mb 100)).1.activeUploads.length ≤ 5 ∧
    (processQueue exFull).1.activeUploads.length ≤ 5 ∧
    (releaseUploadSlot exFull idS1).1.activeUploads.length ≤ 5 ∧
    (resetCoordinator exFull).activeUploads.length ≤ 5 ∧
    (∀ ops : List CoordOp, (runOps ops).activeUploads.length ≤ 5) :=
  active_count_le_five exFull idS6 idS1 (mb 100) (by decide)

/-- Settlement outcome of one operation, mirroring PromiseSettledResult. -/
inductive SettledResult (ε α : Type) where
  | fulfilled (value : α)
  | rejected (reason : ε)
deriving DecidableEq

/-- Driver bookkeeping of processConcurrently: the results array (none marks a
placeholder whose operation has started but not yet settled) and the executing
set, held as the list of started-but-unsettled operation indices. -/
structure DriverState (ε α : Type) where
  results : List (Option (SettledResult ε α))
  executing : List Nat
deriving DecidableEq

/-- One settlement event: the scheduler choice c picks which in-flight
operation settles (modelling which promise wins Promise.race); its worker
writes outcome j at its captured index j and removes itself from the executing
set (the finally clause). On an empty executing set nothing happens. -/
def settleStep {ε α : Type} (outcome : Nat → SettledResult ε α) (c : Nat)
    (st : DriverState ε α) : DriverState ε α :=
  if st.executing.length = 0 then st
  else
    let j := st.executing.getD (c % st.executing.length) 0
    ⟨st.results.set j (some (outcome j)), st.executing.erase j⟩

/-- Embeds the for-loop of processConcurrently over the generator: r operations
remain to be pulled; each pull captures index := results.length, pushes a
placeholder, starts the operation (adds its index to executing), and, when the
executing set has reached the concurrency limit, awaits one settlement chosen
by the scheduler. Also threads the settlement-event counter t and the running
maximum peak of the executing-set size observed just after each start. -/
def pullLoop {ε α : Type} (outcome : Nat → SettledResult ε α) (C : Nat)
    (sched : Nat → Nat) :
    Nat → Nat → Nat → DriverState ε α → DriverState ε α × Nat × Nat
  | 0, t, peak, st => (st, t, peak)
  | r + 1, t, peak, st =>
    let i := st.results.length
    let st1 : DriverState ε α := ⟨st.results ++ [none], st.executing ++ [i]⟩
    let peak1 := max peak st1.executing.length
    if C ≤ st1.executing.length then
      pullLoop outcome C sched r (t + 1) peak1 (settleStep outcome (sched t) st1)
    else
      pullLoop outcome C sched r t peak1 st1

/-- Embeds the final await Promise.all: settle the remaining in-flight
operations one event at a time, in scheduler order; the fuel is the size of the
executing set. -/
def drainAll {ε α : Type} (outcome : Nat → SettledResult ε α)
    (sched : Nat → Nat) :
    Nat → Nat → DriverState ε α → DriverState ε α
  | 0, _, st => st
  | f + 1, t, st =>
    if st.executing.length = 0 then st
    else drainAll outcome sched f (t + 1) (settleStep outcome (sched t) st)

/-- Embeds processConcurrently driving N generator items whose settlements are
given by outcome, under concurrency limit C and completion order chosen by the
scheduler. Returns the final results array and the peak number of
started-but-unsettled operations. -/
def processConcurrently {ε α : Type} (outcome : Nat → SettledResult ε α)
    (N C : Nat) (sched : Nat → Nat) :
    List (Option (SettledResult ε α)) × Nat :=
  let r := pullLoop outcome C sched N 0 0 ⟨[], []⟩
  let fin := drainAll outcome sched r.1.executing.length r.2.1 r.1
  (fin.results, r.2.2)

/-- Driver loop invariant: executing indices are distinct and in range, every
in-flight index holds a placeholder, and every settled index holds exactly its
operation's outcome. -/
def DriverInv {ε α : Type} (outcome : Nat → SettledResult ε α)
    (st : DriverState ε α) : Prop :=
  st.executing.Nodup ∧
  (∀ j ∈ st.executing, j < st.results.length) ∧
  ∀ j, ∀ hj : j < st.results.length,
    st.results[j] = if j ∈ st.executing then none else some (outcome j)

theorem settleStep_eq {ε α : Type} (outcome : Nat → SettledResult ε α) (c : Nat)
    (st : DriverState ε α) (h : st.executing.length ≠ 0) :
    ∃ j ∈ st.executing,
      settleStep outcome c st
        = ⟨st.results.set j (some (outcome j)), st.executing.erase j⟩ := by
  have hk : c % st.executing.length < st.executing.length :=
    Nat.mod_lt _ (Nat.pos_of_ne_zero h)
  refine ⟨st.executing.getD (c % st.executing.length) 0, ?_, ?_⟩
  · rw [List.getD_eq_getElem st.executing 0 hk]
    exact List.getElem_mem hk
  · simp only [settleStep, if_neg h]

theorem settleStep_of_empty {ε α : Type} (outcome : Nat → SettledResult ε α)
    (c : Nat) (st : DriverState ε α) (h : st.executing.length = 0) :
    settleStep outcome c st = st := by
  simp only [settleStep, if_pos h]

theorem settleStep_results_length {ε α : Type}
    (outcome : Nat → SettledResult ε α) (c : Nat) (st : DriverState ε α) :
    (settleStep outcome c st).results.length = st.results.length := by
  by_cases h : st.executing.length = 0
  · rw [settleStep_of_empty outcome c st h]
  · obtain ⟨j, _, heq⟩ := settleStep_eq outcome c st h
    rw [heq]
    exact List.length_set st.results j _

theorem settleStep_executing_length {ε α : Type}
    (outcome : Nat → SettledResult ε α) (c : Nat) (st : DriverState ε α)
    (h : st.executing.length ≠ 0) :
    (settleStep outcome c st).executing.length = st.executing.length - 1 := by
  obtain ⟨j, hj, heq⟩ := settleStep_eq outcome c st h
  rw [heq]
  exact List.length_erase_of_mem hj

theorem DriverInv_settleStep {ε α : Type} (outcome : Nat → SettledResult ε α)
    (c : Nat) (st : DriverState ε α) (hInv : DriverInv outcome st) :
    DriverInv outcome (settleStep outcome c st) := by
  by_cases h : st.executing.length = 0
  · rw [settleStep_of_empty outcome c st h]
    exact hInv
  · obtain ⟨j, hjmem, heq⟩ := settleStep_eq outcome c st h
    obtain ⟨hnd, hbound, hcont⟩ := hInv
    rw [heq]
    refine ⟨hnd.erase j, ?_, ?_⟩
    · intro i hi
      rw [List.length_set]
      exact hbound i (List.mem_of_mem_erase hi)
    · intro i hi
      have hi' : i < st.results.length := by
        simpa using hi
      by_cases hij : i = j
      · subst hij
        have hnm : i ∉ st.executing.erase i := fun hmem =>
          absurd ((hnd.mem_erase_iff.mp hmem).1) (by simp)
        rw [if_neg hnm]
        exact List.getElem_set_self hi
      · have hmem : i ∈ st.executing.erase j ↔ i ∈ st.executing := by
          rw [hnd.mem_erase_iff]
          exact ⟨fun hx => hx.2, fun hx => ⟨hij, hx⟩⟩
        have hget : (st.results.set j (some (outcome j)))[i] = st.results[i] :=
          List.getElem_set_ne (fun hx => hij hx.symm) hi
        rw [hget, hcont i hi']
        by_cases hin : i ∈ st.executing
        · rw [if_pos hin, if_pos (hmem.mpr hin)]
        · rw [if_neg hin, if_neg (fun hx => hin (hmem.mp hx))]

theorem DriverInv_push {ε α : Type} (outcome : Nat → SettledResult ε α)
    (st : DriverState ε α) (hInv : DriverInv outcome st) :
    DriverInv outcome ⟨st.results ++ [none], st.executing ++ [st.results.length]⟩ := by
  obtain ⟨hnd, hbound, hcont⟩ := hInv
  refine ⟨?_, ?_, ?_⟩
  · rw [List.nodup_append]
    refine ⟨hnd, List.nodup_singleton _, ?_⟩
    intro a ha hb
    have h1 : a < st.results.length := hbound a ha
    have h2 : a = st.results.length := List.mem_singleton.mp hb
    omega
  · intro j hj
    simp only [List.length_append, List.length_singleton]
    rcases List.mem_append.mp hj with h1 | h2
    · have := hbound j h1
      omega
    · have := List.mem_singleton.mp h2
      omega
  · intro j hj
    simp only [List.length_append, List.length_singleton] at hj
    by_cases hlt : j < st.results.length
    · have hget : (st.results ++ [none])[j] = st.results[j] :=
        List.getElem_append_left hlt
      have hmem : j ∈ st.executing ++ [st.results.length] ↔ j ∈ st.executing := by
        rw [List.mem_append]
        constructor
        · rintro (h1 | h2)
          · exact h1
          · have := List.mem_singleton.mp h2
            omega
        · exact fun h1 => Or.inl h1
      rw [hget, hcont j hlt]
      by_cases hin : j ∈ st.executing
      · rw [if_pos hin, if_pos (hmem.mpr hin)]
      · rw [if_neg hin, if_neg (fun hx => hin (hmem.mp hx))]
    · have hje : j = st.results.length := by omega
      have hmem : j ∈ st.executing ++ [st.results.length] := by
        rw [List.mem_append]
        exact Or.inr (by rw [hje]; exact List.mem_singleton_self _)
      rw [if_pos hmem]
      subst hje
      rw [List.getElem_append_right (Nat.le_refl _)]
      simp

theorem pullLoop_succ {ε α : Type} (outcome : Nat → SettledResult ε α)
    (C : Nat) (sched : Nat → Nat) (r t peak : Nat) (st : DriverState ε α) :
    pullLoop outcome C sched (r + 1) t peak st =
      if C ≤ st.executing.length + 1 then
        pullLoop outcome C sched r (t + 1) (max peak (st.executing.length + 1))
          (settleStep outcome (sched t)
            ⟨st.results ++ [none], st.executing ++ [st.results.length]⟩)
      else
        pullLoop outcome C sched r t (max peak (st.executing.length + 1))
          ⟨st.results ++ [none], st.executing ++ [st.results.length]⟩ := by
  simp [pullLoop]

theorem pullLoop_spec {ε α : Type} (outcome : Nat → SettledResult ε α)
    (C : Nat) (sched : Nat → Nat) :
    ∀ (r t peak : Nat) (st : DriverState ε α), DriverInv outcome st →
      DriverInv outcome (pullLoop outcome C sched r t peak st).1 ∧
      (pullLoop outcome C sched r t peak st).1.results.length
        = st.results.length + r := by
  intro r
  induction r with
  | zero =>
    intro t peak st h
    exact ⟨h, rfl⟩
  | succ r ih =>
    intro t peak st h
    have hpush := DriverInv_push outcome st h
    rw [pullLoop_succ]
    by_cases hC : C ≤ st.executing.length + 1
    · rw [if_pos hC]
      obtain ⟨h1, h2⟩ := ih (t + 1) (max peak (st.executing.length + 1))
        (settleStep outcome (sched t)
          ⟨st.results ++ [none], st.executing ++ [st.results.length]⟩)
        (DriverInv_settleStep outcome (sched t) _ hpush)
      refine ⟨h1, ?_⟩
      rw [h2, settleStep_results_length]
      simp only [List.length_append, List.length_singleton]
      omega
    · rw [if_neg hC]
      obtain ⟨h1, h2⟩ := ih t (max peak (st.executing.length + 1))
        ⟨st.results ++ [none], st.executing ++ [st.results.length]⟩ hpush
      refine ⟨h1, ?_⟩
      rw [h2]
      simp only [List.length_append, List.length_singleton]
      omega

theorem pullLoop_peak {ε α : Type} (outcome : Nat → SettledResult ε α)
    (C : Nat) (sched : Nat → Nat) :
    ∀ (r t peak : Nat) (st : DriverState ε α),
      st.executing.length < max C 1 → peak ≤ max C 1 →
      (pullLoop outcome C sched r t peak st).2.2 ≤ max C 1 := by
  intro r
  induction r with
  | zero =>
    intro t peak st _ hpeak
    exact hpeak
  | succ r ih =>
    intro t peak st hlen hpeak
    rw [pullLoop_succ]
    have hpeak1 : max peak (st.executing.length + 1) ≤ max C 1 := by
      omega
    by_cases hC : C ≤ st.executing.length + 1
    · rw [if_pos hC]
      refine ih (t + 1) _ _ ?_ hpeak1
      rw [settleStep_executing_length]
      · simp only [List.length_append, List.length_singleton]
        omega
      · simp only [List.length_append, List.length_singleton]
        omega
    · rw [if_neg hC]
      refine ih t _ _ ?_ hpeak1
      simp only [List.length_append, List.length_singleton]
      omega

theorem drainAll_spec {ε α : Type} (outcome : Nat → SettledResult ε α)
    (sched : Nat → Nat) :
    ∀ (f t : Nat) (st : DriverState ε α), DriverInv outcome st →
      st.executing.length ≤ f →
      DriverInv outcome (drainAll outcome sched f t st) ∧
      (drainAll outcome sched f t st).executing = [] ∧
      (drainAll outcome sched f t st).results.length = st.results.length := by
  intro f
  induction f with
  | zero =>
    intro t st h hle
    have hnil : st.executing = [] := List.length_eq_zero.mp (Nat.le_zero.mp hle)
    exact ⟨h, hnil, rfl⟩
  | succ f ih =>
    intro t st h hle
    by_cases hz : st.executing.length = 0
    · have hstep : drainAll outcome sched (f + 1) t st = st := by
        simp only [drainAll, if_pos hz]
      rw [hstep]
      exact ⟨h, List.length_eq_zero.mp hz, rfl⟩
    · simp only [drainAll, if_neg hz]
      obtain ⟨h1, h2, h3⟩ := ih (t + 1) (settleStep outcome (sched t) st)
        (DriverInv_settleStep outcome (sched t) st h)
        (by rw [settleStep_executing_length outcome (sched t) st hz]; omega)
      exact ⟨h1, h2, by rw [h3, settleStep_results_length]⟩

theorem processConcurrently_results {ε α : Type}
    (outcome : Nat → SettledResult ε α) (N C : Nat) (sched : Nat → Nat) :
    (processConcurrently outcome N C sched).1
      = (List.range N).map (fun i => some (outcome i)) := by
  have hinit : DriverInv outcome (⟨[], []⟩ : DriverState ε α) := by
    refine ⟨List.nodup_nil, ?_, ?_⟩
    · intro j hj
      simp at hj
    · intro j hj
      simp at hj
  obtain ⟨hInv, hlen⟩ := pullLoop_spec outcome C sched N 0 0 ⟨[], []⟩ hinit
  obtain ⟨hInv2, hexec, hlen2⟩ := drainAll_spec outcome sched
    (pullLoop outcome C sched N 0 0 ⟨[], []⟩).1.executing.length
    (pullLoop outcome C sched N 0 0 ⟨[], []⟩).2.1
    (pullLoop outcome C sched N 0 0 ⟨[], []⟩).1 hInv (Nat.le_refl _)
  show (drainAll outcome sched _ _ _).results = _
  refine List.ext_getElem ?_ ?_
  · rw [hlen2, hlen]
    simp
  · intro i h1 h2
    have hiN : i < (drainAll outcome sched
        (pullLoop outcome C sched N 0 0 ⟨[], []⟩).1.executing.length
        (pullLoop outcome C sched N 0 0 ⟨[], []⟩).2.1
        (pullLoop outcome C sched N 0 0 ⟨[], []⟩).1).results.length := h1
    have hval := hInv2.2.2 i hiN
    rw [hexec] at hval
    rw [if_neg (List.not_mem_nil i)] at hval
    rw [hval, List.getElem_map, List.getElem_range]

/-- C3: for every input of N items driven through processConcurrently, the
result sequence has length exactly N and the entry at index i is the
settlement outcome of the operation produced for item i, whatever concurrency
limit is used and whichever completion order the scheduler realises. -/
theorem processConcurrently_preserves_order {ε α : Type}
    (outcome : Nat → SettledResult ε α) (N C : Nat) (sched : Nat → Nat) :
    (processConcurrently outcome N C sched).1
      = (List.range N).map (fun i => some (outcome i)) :=
  processConcurrently_results outcome N C sched

def exOutcomeOne : Nat → SettledResult Nat Nat := fun _ =>
  SettledResult.fulfilled 0

/-- C4 counterexample: a run with one item under limit C = 0 still starts the
single operation before checking the limit, so the peak number of
started-but-unsettled operations is 1, exceeding the stated bound C = 0. -/
theorem concurrency_bound_zero_counterexample :
    (processConcurrently exOutcomeOne 1 0 (fun t => t)).2 = 1 ∧ ¬ (1 ≤ 0) := by
  constructor
  · rfl
  · decide

/-- C4 (amended): at every point of a processConcurrently run with limit C the
number of started-but-unsettled operations is at most max C 1: the stated bound
C holds for every C at least 1, while with C = 0 a single operation is still
started at a time, so the count can reach 1. The peak component records the
executing-set size right after each operation start, which is where the count
is largest. -/
theorem processConcurrently_concurrency_bound {ε α : Type}
    (outcome : Nat → SettledResult ε α) (N C : Nat) (sched : Nat → Nat) :
    (processConcurrently outcome N C sched).2 ≤ max C 1 := by
  have h := pullLoop_peak outcome C sched N 0 0 ⟨[], []⟩
    (by simp) (Nat.zero_le _)
  simpa [processConcurrently] using h

/-- C7: an individual operation's failure is recorded as a rejected entry at
that item's index, the driver still returns a full-length result array (it
never throws away the run), and every other item's outcome is recorded at its
own index unaffected, for every limit and completion order. -/
theorem operation_failure_isolated {ε α : Type}
    (outcome : Nat → SettledResult ε α) (N C : Nat) (sched : Nat → Nat)
    (i : Nat) (r : ε) (hi : i < N)
    (hrej : outcome i = SettledResult.rejected r) :
    (processConcurrently outcome N C sched).1.length = N ∧
    (processConcurrently outcome N C sched).1.getD i none
      = some (SettledResult.rejected r) ∧
    ∀ j, j < N → j ≠ i →
      (processConcurrently outcome N C sched).1.getD j none
        = some (outcome j) := by
  have hres := processConcurrently_results outcome N C sched
  rw [hres]
  refine ⟨by simp, ?_, ?_⟩
  · have hj : i < ((List.range N).map
        (fun k => some (outcome k))).length := by
      simpa using hi
    rw [List.getD_eq_getElem _ none hj, List.getElem_map, List.getElem_range,
      hrej]
  · intro j hjN _
    have hj : j < ((List.range N).map
        (fun k => some (outcome k))).length := by
      simpa using hjN
    rw [List.getD_eq_getElem _ none hj, List.getElem_map, List.getElem_range]

def exOutcomeMixed : Nat → SettledResult Nat Nat := fun i =>
  if i = 1 then SettledResult.rejected 7 else SettledResult.fulfilled i

/-- C7 witness: driving three items under limit 2 where the second operation
rejects: the rejection lands at index 1, the run completes with three entries,
and the other indices carry their own outcomes. -/
theorem operation_failure_isolated_witness :
    (processConcurrently exOutcomeMixed 3 2 (fun t => t)).1.length = 3 ∧
    (processConcurrently exOutcomeMixed 3 2 (fun t => t)).1.getD 1 none
      = some (SettledResult.rejected 7) ∧
    ∀ j, j < 3 → j ≠ 1 →
      (processConcurrently exOutcomeMixed 3 2 (fun t => t)).1.getD j none
        = some (exOutcomeMixed j) :=
  operation_failure_isolated exOutcomeMixed 3 2 (fun t => t) 1 7 (by decide)
    (by decide)
